import Mathlib

/-!
A formal model of the gap-filling beat-aligned interval schedulers of the
Vixen effect scripts (`add_beatnet_effects.py`, `add_waveform_effects.py`,
`add_beat_synced_effects.py`), with theorems settling the specification's
claims about them.

Modelling conventions:
* Time is exact: timestamps and durations are integers measured in
  milliseconds.  Every numeric constant appearing in the schedulers
  (0.3 s margin, 0.1 s gap buffer, the 0.5/0.7/1.0/2.0/2.5/4/5/8/10 s
  duration bounds) is an exact multiple of 1 ms, so the scaling is exact;
  300 below is the source's 0.3, 100 is 0.1, and so on.
* Python lists of `(start, end)` interval tuples become `List (ℤ × ℤ)`;
  beat timestamp lists become `List ℤ`.
* The scripts draw from `uuid.uuid4()` and the global `random` generator.
  Both are modelled by a single explicit stream `rng : ℕ → ℕ` consumed at
  an explicit counter; `random.choice xs` becomes
  `xs.getD (rng ctr % xs.length) default`.
* The `while` loops advance a cursor over the beat list; they are embedded
  with an explicit fuel argument, and the top-level runs supply fuel equal
  to the number of beats, which is sufficient because every iteration
  advances the cursor (proved below).
* The ISO-8601 duration decoder `parse_duration` is modelled over ℚ
  (fractional seconds of arbitrary precision), faithfully to the regex
  `PT(?:(\d+)M)?(\d+(?:\.\d+)?)S` under `re.match` semantics.
-/

namespace Vixen

/-- `is_gap` from the scripts: a time point is in a gap iff no existing
interval `[s, e]` satisfies `s - threshold ≤ t ≤ e + threshold`. -/
def is_gap (t : ℤ) (existing : List (ℤ × ℤ)) (threshold : ℤ) : Bool :=
  existing.all fun p => !(decide (p.1 - threshold ≤ t) && decide (t ≤ p.2 + threshold))

/-- The inline end-point test of `find_end_beat`: the candidate end time
lies inside some existing interval (closed, zero margin). -/
def end_overlap (t : ℤ) (existing : List (ℤ × ℤ)) : Bool :=
  existing.any fun p => decide (p.1 ≤ t) && decide (t ≤ p.2)

/-- The scan loop of `find_end_beat`
(`for i in range(start_beat_idx + 1, min(start_beat_idx + 20, len(beats)))`),
with `count` the number of remaining candidate indices and `i` the current
index: skip a candidate below `min_dur`, stop at one above `max_dur`,
skip a candidate whose end point lies in an occupied interval, and return
the first accepted candidate. -/
def scan_end (start_time : ℤ) (beats : List ℤ) (existing : List (ℤ × ℤ))
    (min_dur max_dur : ℤ) : ℕ → ℕ → Option (ℕ × ℤ × ℤ)
  | 0, _ => none
  | count + 1, i =>
    let end_time := beats.getD i 0
    let duration := end_time - start_time
    if duration < min_dur then
      scan_end start_time beats existing min_dur max_dur count (i + 1)
    else if max_dur < duration then
      none
    else if end_overlap end_time existing then
      scan_end start_time beats existing min_dur max_dur count (i + 1)
    else
      some (i, end_time, duration)

/-- `find_end_beat` of `add_beatnet_effects.py`: scan the 19 beats after
`start_idx` (indices `start_idx+1` up to `min (start_idx+20) beats.length`,
exclusive) for the first acceptable end beat. -/
def find_end_beat (start_idx : ℕ) (beats : List ℤ) (existing : List (ℤ × ℤ))
    (min_dur max_dur : ℤ) : Option (ℕ × ℤ × ℤ) :=
  scan_end (beats.getD start_idx 0) beats existing min_dur max_dur
    (min (start_idx + 20) beats.length - (start_idx + 1)) (start_idx + 1)

/-- Two closed intervals that do not overlap within margin `margin`:
they are separated by more than the margin at the facing boundaries. -/
def intervals_separated (margin : ℤ) (a b : ℤ × ℤ) : Prop :=
  a.2 + margin ≤ b.1 ∨ b.2 + margin ≤ a.1

instance (margin : ℤ) (a b : ℤ × ℤ) : Decidable (intervals_separated margin a b) :=
  inferInstanceAs (Decidable (a.2 + margin ≤ b.1 ∨ b.2 + margin ≤ a.1))

/-- An emitted effect of `add_beatnet_effects.py`: the effect id
(`uuid.uuid4()`, modelled as a number drawn from the stream), the start and
end beat indices, the start time and duration in ms, the chosen effect
type, and the colour index (`color_idx % len(COLORS)`). -/
structure Effect where
  id : ℕ
  start_idx : ℕ
  end_idx : ℕ
  start : ℤ
  duration : ℤ
  kind : String
  color_idx : ℕ
deriving DecidableEq, Repr

/-- Ordering of interval tuples, as Python's lexicographic tuple `sort`. -/
def interval_le (a b : ℤ × ℤ) : Prop :=
  a.1 < b.1 ∨ (a.1 = b.1 ∧ a.2 ≤ b.2)

instance : DecidableRel interval_le := fun a b =>
  inferInstanceAs (Decidable (a.1 < b.1 ∨ (a.1 = b.1 ∧ a.2 ≤ b.2)))

/-- `existing_effects.append((start, end)); existing_effects.sort()` of the
main loop, on an already sorted list. -/
def insert_sorted (p : ℤ × ℤ) (l : List (ℤ × ℤ)) : List (ℤ × ℤ) :=
  List.orderedInsert interval_le p l

/-- The loop state of the `add_beatnet_effects.py` main loop: the scan
cursor `i`, the mutable `existing_effects` list, `color_idx`, and the
position in the random stream. -/
structure BState where
  i : ℕ
  existing : List (ℤ × ℤ)
  color_idx : ℕ
  ctr : ℕ
deriving DecidableEq, Repr

/-- One iteration of the `while i < len(beats)` loop of
`add_beatnet_effects.py` (to be run only when `s.i < beats.length`):
skip a beat that is not in a gap; otherwise pick the salience tier
(downbeat: 2–10 s and the long effect kinds; regular: 0.5–2 s pulses),
ask `find_end_beat` for an end, and on success emit the effect, insert its
interval into `existing_effects`, and jump the cursor past the end beat. -/
def beatnet_step (beats downbeats : List ℤ) (rng : ℕ → ℕ) (s : BState) :
    Option Effect × BState :=
  let beat_time := beats.getD s.i 0
  if is_gap beat_time s.existing 300 = false then
    (none, { s with i := s.i + 1 })
  else
    let is_downbeat := downbeats.contains beat_time
    let min_dur : ℤ := if is_downbeat then 2000 else 500
    let max_dur : ℤ := if is_downbeat then 10000 else 2000
    let effect_choices :=
      if is_downbeat then ["spiral", "butterfly", "twinkle", "wipe"] else ["pulse"]
    match find_end_beat s.i beats s.existing min_dur max_dur with
    | none => (none, { s with i := s.i + 1 })
    | some (end_idx, end_time, duration) =>
      (some { id := rng s.ctr, start_idx := s.i, end_idx := end_idx,
              start := beat_time, duration := duration,
              kind := effect_choices.getD (rng (s.ctr + 1) % effect_choices.length) "",
              color_idx := s.color_idx % 8 },
       { i := end_idx + 1,
         existing := insert_sorted (beat_time, end_time) s.existing,
         color_idx := s.color_idx + 1, ctr := s.ctr + 2 })

/-- The main loop of `add_beatnet_effects.py`, iterating `beatnet_step`
while `i < len(beats)`.  `fuel` bounds the number of iterations; the top
level run supplies `beats.length`, which suffices because every iteration
strictly advances the cursor. -/
def beatnet_loop (beats downbeats : List ℤ) (rng : ℕ → ℕ) : ℕ → BState → List Effect
  | 0, _ => []
  | fuel + 1, s =>
    if s.i < beats.length then
      match beatnet_step beats downbeats rng s with
      | (some eff, s') => eff :: beatnet_loop beats downbeats rng fuel s'
      | (none, s') => beatnet_loop beats downbeats rng fuel s'
    else []

/-- A whole pass of `add_beatnet_effects.py` over the beat list, from
cursor 0 with the decoded pre-existing intervals. -/
def beatnet_run (beats downbeats : List ℤ) (existing : List (ℤ × ℤ))
    (rng : ℕ → ℕ) : List Effect :=
  beatnet_loop beats downbeats rng beats.length ⟨0, existing, 0, 0⟩

/-- An effect planned by `add_waveform_effects.py` (the fields of the
`effects_to_add` dictionary, with the colour as a palette index). -/
structure WEffect where
  start_time : ℤ
  end_time : ℤ
  duration : ℤ
  effect_type : String
  is_downbeat : Bool
  is_strong : Bool
  color_idx : ℕ
deriving DecidableEq, Repr

/-- The per-tier duration window chosen inside `find_end_beat` of
`add_waveform_effects.py`: downbeats 1–8 s, strong beats 0.7–4 s, regular
beats `min_duration`–2 s (the caller passes `min_duration = 0.5 s` and
`max_duration = 10 s`). -/
def waveform_window (is_downbeat is_strong : Bool) (min_duration max_duration : ℤ) :
    ℤ × ℤ :=
  if is_downbeat then (1000, min max_duration 8000)
  else if is_strong then (700, min max_duration 4000)
  else (min_duration, min max_duration 2000)

/-- `find_end_beat` of `add_waveform_effects.py`: the same scan as the
beatnet variant, over the window of the start beat's salience tier. -/
def find_end_beat_waveform (start_idx : ℕ) (beats : List ℤ)
    (existing : List (ℤ × ℤ)) (is_downbeat is_strong : Bool)
    (min_duration max_duration : ℤ) : Option (ℕ × ℤ × ℤ) :=
  let w := waveform_window is_downbeat is_strong min_duration max_duration
  scan_end (beats.getD start_idx 0) beats existing w.1 w.2
    (min (start_idx + 20) beats.length - (start_idx + 1)) (start_idx + 1)

/-- The effect-type choice lists of the `add_waveform_effects.py` main
loop, by beat type and found duration. -/
def waveform_choices (is_downbeat is_strong : Bool) (duration : ℤ) : List String :=
  if is_downbeat ∧ 4000 ≤ duration then ["spiral", "butterfly"]
  else if is_downbeat ∨ (is_strong ∧ 2000 ≤ duration) then ["wipe", "twinkle", "butterfly"]
  else if is_strong then ["pulse", "pulse", "twinkle"]
  else ["pulse"]

/-- The `while beat_idx < len(beats)` planning loop of
`add_waveform_effects.py`.  Note that this script never inserts the
planned effects back into `existing_effects`; the cursor jump past the
end beat is the only interaction between placements. -/
def waveform_loop (beats downbeats strong_beats : List ℤ)
    (existing : List (ℤ × ℤ)) (rng : ℕ → ℕ) : ℕ → ℕ → ℕ → List WEffect
  | 0, _, _ => []
  | fuel + 1, beat_idx, ctr =>
    if beat_idx < beats.length then
      let beat_time := beats.getD beat_idx 0
      if is_gap beat_time existing 300 then
        let is_downbeat := downbeats.contains beat_time
        let is_strong := strong_beats.contains beat_time
        match find_end_beat_waveform beat_idx beats existing is_downbeat is_strong
            500 10000 with
        | some (end_idx, end_time, duration) =>
          let choices := waveform_choices is_downbeat is_strong duration
          { start_time := beat_time, end_time := end_time, duration := duration,
            effect_type := choices.getD (rng ctr % choices.length) "",
            is_downbeat := is_downbeat, is_strong := is_strong,
            color_idx := rng (ctr + 1) % 8 } ::
            waveform_loop beats downbeats strong_beats existing rng fuel
              (end_idx + 1) (ctr + 2)
        | none =>
          waveform_loop beats downbeats strong_beats existing rng fuel
            (beat_idx + 1) ctr
      else
        waveform_loop beats downbeats strong_beats existing rng fuel
          (beat_idx + 1) ctr
    else []

/-- A whole planning pass of `add_waveform_effects.py`. -/
def waveform_run (beats downbeats strong_beats : List ℤ)
    (existing : List (ℤ × ℤ)) (rng : ℕ → ℕ) : List WEffect :=
  waveform_loop beats downbeats strong_beats existing rng beats.length 0 0

/-- The cursor position after one iteration of the `add_waveform_effects.py`
main loop: `beat_idx + 1` on a skipped beat or a failed end search,
`end_idx + 1` after a placement. -/
def waveform_next (beats downbeats strong_beats : List ℤ)
    (existing : List (ℤ × ℤ)) (beat_idx : ℕ) : ℕ :=
  if is_gap (beats.getD beat_idx 0) existing 300 then
    match find_end_beat_waveform beat_idx beats existing
        (downbeats.contains (beats.getD beat_idx 0))
        (strong_beats.contains (beats.getD beat_idx 0)) 500 10000 with
    | some (end_idx, _, _) => end_idx + 1
    | none => beat_idx + 1
  else beat_idx + 1

/-- `find_gap_duration` of `add_beat_synced_effects.py`: the largest span
available from `time_point`, capped at `max_duration`, stopping 0.1 s
(the gap buffer) before the next existing interval start found by the
fold over the existing list in order. -/
def find_gap_duration (time_point : ℤ) (existing : List (ℤ × ℤ))
    (max_duration : ℤ) : ℤ :=
  let end_time := existing.foldl
    (fun acc p => if time_point < p.1 ∧ p.1 < acc then p.1 - 100 else acc)
    (time_point + max_duration)
  min (end_time - time_point) max_duration

/-- The advance loop
`while i < len(beats_in_gaps) and beats_in_gaps[i] < beat_time + duration`
of `add_beat_synced_effects.py`, with fuel (the top level passes the list
length, which suffices because the cursor never exceeds the length). -/
def skip_covered (bg : List ℤ) (limit : ℤ) : ℕ → ℕ → ℕ
  | 0, i => i
  | f + 1, i =>
    if i < bg.length ∧ bg.getD i 0 < limit then skip_covered bg limit f (i + 1)
    else i

/-- An effect emitted by `add_beat_synced_effects.py`. -/
structure SEffect where
  start : ℤ
  duration : ℤ
  effect_type : String
  color_idx : ℕ
  id : ℕ
deriving DecidableEq, Repr

/-- The free-running main loop of `add_beat_synced_effects.py` over the
pre-filtered `beats_in_gaps` list: at the cursor beat, compute the free
gap span, pick an effect family and duration by gap size (no minimum
duration is checked anywhere), emit the effect, and skip the beats the
new effect covers.  The script never inserts new effects into
`existing_effects`.  The dead `beats_in_this_gap` counter of the source is
omitted (it is computed but never used). -/
def sync_loop (bg : List ℤ) (existing : List (ℤ × ℤ)) (rng : ℕ → ℕ) :
    ℕ → ℕ → ℕ → ℕ → List SEffect
  | 0, _, _, _ => []
  | fuel + 1, i, color_idx, ctr =>
    if i < bg.length then
      let beat_time := bg.getD i 0
      let gap_duration := find_gap_duration beat_time existing 10000
      let effect_type :=
        if 5000 ≤ gap_duration then
          (["spiral", "butterfly", "twinkle"]).getD (rng (ctr + 1) % 3) ""
        else if 2500 ≤ gap_duration then
          (["wipe", "twinkle", "butterfly"]).getD (rng (ctr + 1) % 3) ""
        else "pulse"
      let duration :=
        if 5000 ≤ gap_duration then min gap_duration 8000
        else if 2500 ≤ gap_duration then min gap_duration 5000
        else min gap_duration 2000
      { start := beat_time, duration := duration, effect_type := effect_type,
        color_idx := color_idx % 8, id := rng ctr } ::
        sync_loop bg existing rng fuel
          (skip_covered bg (beat_time + duration) bg.length i) (color_idx + 1)
          (ctr + 2)
    else []

/-- A whole pass of `add_beat_synced_effects.py`: filter the drum beats
down to those in gaps (margin 0.3 s), then run the placement loop. -/
def sync_run (drum_beats : List ℤ) (existing : List (ℤ × ℤ))
    (rng : ℕ → ℕ) : List SEffect :=
  let beats_in_gaps := drum_beats.filter (fun t => is_gap t existing 300)
  sync_loop beats_in_gaps existing rng beats_in_gaps.length 0 0 0

/-- The numeric value of a digit run, as Python's `int`. -/
def nat_of_digits (l : List Char) : ℕ :=
  l.foldl (fun a c => 10 * a + (c.toNat - 48)) 0

/-- The value of the fractional digit run of a decimal literal. -/
def frac_of_digits (l : List Char) : ℚ :=
  (nat_of_digits l : ℚ) / (10 ^ l.length)

/-- The seconds component `\d+(\.\d+)?S` of the duration pattern, at the
head of the character list (trailing characters are ignored, as with
`re.match`). -/
def dur_secs (cs : List Char) : Option ℚ :=
  let run := cs.takeWhile Char.isDigit
  let after := cs.dropWhile Char.isDigit
  match run with
  | [] => none
  | _ :: _ =>
    match after with
    | '.' :: t2 =>
      match t2.takeWhile Char.isDigit, t2.dropWhile Char.isDigit with
      | _ :: _, 'S' :: _ =>
        some ((nat_of_digits run : ℚ) + frac_of_digits (t2.takeWhile Char.isDigit))
      | _, _ => none
    | 'S' :: _ => some ((nat_of_digits run : ℚ))
    | _ => none

/-- `re.match(r'PT(?:(\d+)M)?(\d+(?:\.\d+)?)S', ...)` of `parse_duration`:
after `PT`, an optional minutes group commits exactly when a nonempty
digit run is directly followed by `M` (otherwise every backtracking path
of the optional group fails, because after the digits comes `M`, never
`.` or `S`); then the seconds component must match. -/
def dur_match (cs : List Char) : Option (ℕ × ℚ) :=
  match cs with
  | 'P' :: 'T' :: rest =>
    match rest.takeWhile Char.isDigit, rest.dropWhile Char.isDigit with
    | _ :: _, 'M' :: tail =>
      (dur_secs tail).map (fun secs => (nat_of_digits (rest.takeWhile Char.isDigit), secs))
    | _, _ => (dur_secs rest).map (fun secs => (0, secs))
  | _ => none

/-- `parse_duration` of the scripts: the matched value in seconds, or 0
when the pattern does not match (no exception is ever raised). -/
def parse_duration (s : String) : ℚ :=
  match dur_match s.toList with
  | some (mins, secs) => mins * 60 + secs
  | none => 0

/-- Lexicographic order on decoded interval tuples (Python tuple sort). -/
def interval_le_q (a b : ℚ × ℚ) : Prop :=
  a.1 < b.1 ∨ (a.1 = b.1 ∧ a.2 ≤ b.2)

instance : DecidableRel interval_le_q := fun a b =>
  inferInstanceAs (Decidable (a.1 < b.1 ∨ (a.1 = b.1 ∧ a.2 ≤ b.2)))

/-- The loading phase of the scripts: each extracted
`(StartTime, TimeSpan)` string pair is decoded with `parse_duration` into
`(start, start + duration)` and the list is sorted; the phase is total
and never rejects an entry. -/
def load_existing (entries : List (String × String)) : List (ℚ × ℚ) :=
  List.insertionSort interval_le_q
    (entries.map fun p => (parse_duration p.1, parse_duration p.1 + parse_duration p.2))

theorem scan_end_some_spec (start_time : ℤ) (beats : List ℤ)
    (existing : List (ℤ × ℤ)) (min_dur max_dur : ℤ) :
    ∀ (count i : ℕ) (j : ℕ) (e d : ℤ),
      scan_end start_time beats existing min_dur max_dur count i = some (j, e, d) →
      i ≤ j ∧ j < i + count ∧ e = beats.getD j 0 ∧ d = e - start_time ∧
      min_dur ≤ d ∧ d ≤ max_dur ∧ end_overlap e existing = false ∧
      ∀ k, i ≤ k → k < j →
        (beats.getD k 0 - start_time < min_dur ∨
         (beats.getD k 0 - start_time ≤ max_dur ∧
          end_overlap (beats.getD k 0) existing = true)) := by
  intro count
  induction count with
  | zero => intro i j e d h; simp [scan_end] at h
  | succ count ih =>
    intro i j e d h
    simp only [scan_end] at h
    split at h
    next h1 =>
      obtain ⟨hij, hjc, he, hd, hmin, hmax, hov, hall⟩ := ih (i + 1) j e d h
      refine ⟨by omega, by omega, he, hd, hmin, hmax, hov, ?_⟩
      intro k hk1 hk2
      rcases Nat.eq_or_lt_of_le hk1 with rfl | hk
      · exact Or.inl h1
      · exact hall k hk hk2
    next h1 =>
      split at h
      next h2 => exact absurd h (by simp)
      next h2 =>
        split at h
        next h3 =>
          obtain ⟨hij, hjc, he, hd, hmin, hmax, hov, hall⟩ := ih (i + 1) j e d h
          refine ⟨by omega, by omega, he, hd, hmin, hmax, hov, ?_⟩
          intro k hk1 hk2
          rcases Nat.eq_or_lt_of_le hk1 with rfl | hk
          · exact Or.inr ⟨by omega, h3⟩
          · exact hall k hk hk2
        next h3 =>
          rw [Option.some.injEq, Prod.mk.injEq, Prod.mk.injEq] at h
          obtain ⟨rfl, rfl, rfl⟩ := h
          refine ⟨le_refl _, by omega, rfl, rfl, by omega, by omega, ?_, ?_⟩
          · simpa using h3
          · intro k hk1 hk2; omega

theorem scan_end_none_spec (start_time : ℤ) (beats : List ℤ)
    (existing : List (ℤ × ℤ)) (min_dur max_dur : ℤ) :
    ∀ (count i : ℕ),
      scan_end start_time beats existing min_dur max_dur count i = none →
      ∀ k, i ≤ k → k < i + count →
        (beats.getD k 0 - start_time < min_dur ∨
         end_overlap (beats.getD k 0) existing = true ∨
         ∃ m, i ≤ m ∧ m ≤ k ∧ max_dur < beats.getD m 0 - start_time) := by
  intro count
  induction count with
  | zero => intro i _ k hk1 hk2; omega
  | succ count ih =>
    intro i h k hk1 hk2
    simp only [scan_end] at h
    split at h
    next h1 =>
      rcases Nat.eq_or_lt_of_le hk1 with rfl | hk
      · exact Or.inl h1
      · rcases ih (i + 1) h k hk (by omega) with hc | hc | ⟨m, hm1, hm2, hm3⟩
        · exact Or.inl hc
        · exact Or.inr (Or.inl hc)
        · exact Or.inr (Or.inr ⟨m, by omega, hm2, hm3⟩)
    next h1 =>
      split at h
      next h2 => exact Or.inr (Or.inr ⟨i, le_refl _, hk1, h2⟩)
      next h2 =>
        split at h
        next h3 =>
          rcases Nat.eq_or_lt_of_le hk1 with rfl | hk
          · exact Or.inr (Or.inl h3)
          · rcases ih (i + 1) h k hk (by omega) with hc | hc | ⟨m, hm1, hm2, hm3⟩
            · exact Or.inl hc
            · exact Or.inr (Or.inl hc)
            · exact Or.inr (Or.inr ⟨m, by omega, hm2, hm3⟩)
        next h3 => simp at h

/-- C2: in beat-quantized mode the End-Point Resolver scans the beats after
the start beat in order within a lookahead bounded by index
`start_idx + 20`, skips every candidate whose duration is below the tier
minimum, stops as soon as a candidate's duration exceeds the tier maximum,
rejects a candidate whose exact timestamp lies inside an occupied interval
(zero margin, single point), returns the first accepted candidate, and
reports no placement when the window is exhausted without acceptance. -/
theorem claim_C2_end_point_resolver (start_idx : ℕ) (beats : List ℤ)
    (existing : List (ℤ × ℤ)) (min_dur max_dur : ℤ) :
    (∀ (j : ℕ) (e d : ℤ),
      find_end_beat start_idx beats existing min_dur max_dur = some (j, e, d) →
      start_idx + 1 ≤ j ∧ j < min (start_idx + 20) beats.length ∧
      e = beats.getD j 0 ∧ d = e - beats.getD start_idx 0 ∧
      min_dur ≤ d ∧ d ≤ max_dur ∧ end_overlap e existing = false ∧
      ∀ k, start_idx + 1 ≤ k → k < j →
        (beats.getD k 0 - beats.getD start_idx 0 < min_dur ∨
         (beats.getD k 0 - beats.getD start_idx 0 ≤ max_dur ∧
          end_overlap (beats.getD k 0) existing = true))) ∧
    (find_end_beat start_idx beats existing min_dur max_dur = none →
      ∀ k, start_idx + 1 ≤ k → k < min (start_idx + 20) beats.length →
        (beats.getD k 0 - beats.getD start_idx 0 < min_dur ∨
         end_overlap (beats.getD k 0) existing = true ∨
         ∃ m, start_idx + 1 ≤ m ∧ m ≤ k ∧
           max_dur < beats.getD m 0 - beats.getD start_idx 0)) := by
  constructor
  · intro j e d h
    rcases Nat.le_total (min (start_idx + 20) beats.length) (start_idx + 1) with hle | hle
    · have hc : min (start_idx + 20) beats.length - (start_idx + 1) = 0 := by omega
      rw [find_end_beat, hc] at h
      simp [scan_end] at h
    · obtain ⟨hij, hjc, he, hd, hmin, hmax, hov, hall⟩ :=
        scan_end_some_spec _ _ _ _ _ _ _ _ _ _ h
      exact ⟨hij, by omega, he, hd, hmin, hmax, hov, hall⟩
  · intro h k hk1 hk2
    exact scan_end_none_spec _ _ _ _ _ _ _ h k hk1 (by omega)

theorem claim_C2_witness :
    (500 : ℤ) ≤ 1000 ∧ (1000 : ℤ) ≤ 2000 :=
  have h := (claim_C2_end_point_resolver 0 [0, 1000] [] 500 2000).1 1 1000 1000 (by decide)
  ⟨h.2.2.2.2.1, h.2.2.2.2.2.1⟩

theorem is_gap_iff (t threshold : ℤ) (l : List (ℤ × ℤ)) :
    is_gap t l threshold = true ↔
      ∀ p ∈ l, ¬(p.1 - threshold ≤ t ∧ t ≤ p.2 + threshold) := by
  rw [is_gap, List.all_eq_true]
  refine forall_congr' fun p => forall_congr' fun hp => ?_
  constructor
  · intro hb hcon
    simp [hcon.1, hcon.2] at hb
  · intro hnot
    by_cases h1 : p.1 - threshold ≤ t
    · by_cases h2 : t ≤ p.2 + threshold
      · exact absurd ⟨h1, h2⟩ hnot
      · simp [h2]
    · simp [h1]

theorem end_overlap_eq_false_iff (t : ℤ) (l : List (ℤ × ℤ)) :
    end_overlap t l = false ↔ ∀ p ∈ l, ¬(p.1 ≤ t ∧ t ≤ p.2) := by
  rw [end_overlap, Bool.eq_false_iff, ne_eq, List.any_eq_true]
  constructor
  · intro h p hp hcon
    exact h ⟨p, hp, by simp [hcon.1, hcon.2]⟩
  · rintro h ⟨p, hp, hb⟩
    simp only [Bool.and_eq_true, decide_eq_true_eq] at hb
    exact h p hp hb

theorem is_gap_mono {t threshold : ℤ} {l l' : List (ℤ × ℤ)}
    (hsub : ∀ p ∈ l, p ∈ l') (h : is_gap t l' threshold = true) :
    is_gap t l threshold = true := by
  rw [is_gap_iff] at h ⊢
  exact fun p hp => h p (hsub p hp)

theorem end_overlap_mono {t : ℤ} {l l' : List (ℤ × ℤ)}
    (hsub : ∀ p ∈ l, p ∈ l') (h : end_overlap t l' = false) :
    end_overlap t l = false := by
  rw [end_overlap_eq_false_iff] at h ⊢
  exact fun p hp => h p (hsub p hp)

theorem mem_insert_sorted {p q : ℤ × ℤ} {l : List (ℤ × ℤ)} :
    p ∈ insert_sorted q l ↔ p = q ∨ p ∈ l :=
  List.mem_orderedInsert _

theorem getD_lt_getD_of_sorted {l : List ℤ} (h : l.Pairwise (· < ·)) {a b : ℕ}
    (hab : a < b) (hb : b < l.length) : l.getD a 0 < l.getD b 0 := by
  have ha : a < l.length := lt_trans hab hb
  rw [List.getD_eq_getElem l 0 ha, List.getD_eq_getElem l 0 hb]
  exact List.pairwise_iff_getElem.mp h a b ha hb hab

theorem getD_mem_of_lt {l : List ℤ} {n : ℕ} (h : n < l.length) :
    l.getD n 0 ∈ l := by
  rw [List.getD_eq_getElem l 0 h]
  exact List.getElem_mem h

theorem find_end_beat_some {start_idx : ℕ} {beats : List ℤ}
    {existing : List (ℤ × ℤ)} {min_dur max_dur : ℤ} {j : ℕ} {e d : ℤ}
    (h : find_end_beat start_idx beats existing min_dur max_dur = some (j, e, d)) :
    start_idx + 1 ≤ j ∧ j < beats.length ∧ e = beats.getD j 0 ∧
    d = e - beats.getD start_idx 0 ∧ min_dur ≤ d ∧ d ≤ max_dur ∧
    end_overlap e existing = false := by
  rw [find_end_beat] at h
  rcases Nat.le_total (min (start_idx + 20) beats.length) (start_idx + 1) with hle | hle
  · have hc : min (start_idx + 20) beats.length - (start_idx + 1) = 0 := by omega
    rw [hc] at h
    simp [scan_end] at h
  · obtain ⟨h1, h2, h3, h4, h5, h6, h7, _⟩ :=
      scan_end_some_spec _ _ _ _ _ _ _ _ _ _ h
    exact ⟨h1, by omega, h3, h4, h5, h6, h7⟩

theorem beatnet_step_spec (beats downbeats : List ℤ) (rng : ℕ → ℕ) (s : BState) :
    ∀ oe s', beatnet_step beats downbeats rng s = (oe, s') →
      (oe = none ∧ s'.existing = s.existing ∧ s'.i = s.i + 1) ∨
      (∃ eff, oe = some eff ∧
        eff.start_idx = s.i ∧ s.i + 1 ≤ eff.end_idx ∧ eff.end_idx < beats.length ∧
        eff.start = beats.getD s.i 0 ∧
        eff.start + eff.duration = beats.getD eff.end_idx 0 ∧
        is_gap eff.start s.existing 300 = true ∧
        end_overlap (beats.getD eff.end_idx 0) s.existing = false ∧
        s'.i = eff.end_idx + 1 ∧
        s'.existing = insert_sorted (eff.start, beats.getD eff.end_idx 0) s.existing) := by
  intro oe s' h
  simp only [beatnet_step] at h
  split at h
  next hg =>
    rw [Prod.mk.injEq] at h
    obtain ⟨h1, h2⟩ := h
    subst h2
    exact Or.inl ⟨h1.symm, rfl, rfl⟩
  next hg =>
    have hg' : is_gap (beats.getD s.i 0) s.existing 300 = true := by
      cases hgb : is_gap (beats.getD s.i 0) s.existing 300
      · exact absurd hgb hg
      · rfl
    split at h
    next heq =>
      rw [Prod.mk.injEq] at h
      obtain ⟨h1, h2⟩ := h
      subst h2
      exact Or.inl ⟨h1.symm, rfl, rfl⟩
    next end_idx end_time duration heq =>
      obtain ⟨hj1, hj2, hj3, hj4, _, _, hj7⟩ := find_end_beat_some heq
      rw [Prod.mk.injEq] at h
      obtain ⟨h1, h2⟩ := h
      subst h2
      refine Or.inr ⟨_, h1.symm, rfl, hj1, hj2, rfl, ?_, hg', ?_, rfl, ?_⟩
      · dsimp only
        omega
      · dsimp only
        rw [← hj3]
        exact hj7
      · dsimp only
        rw [hj3]

theorem beatnet_step_progress (beats downbeats : List ℤ) (rng : ℕ → ℕ)
    (s : BState) : s.i < (beatnet_step beats downbeats rng s).2.i := by
  rcases hp : beatnet_step beats downbeats rng s with ⟨oe, s'⟩
  rcases beatnet_step_spec beats downbeats rng s oe s' hp with
    ⟨_, _, hi⟩ | ⟨eff, _, _, hend, _, _, _, _, _, hi, _⟩
  · dsimp only
    omega
  · dsimp only
    omega

theorem beatnet_loop_mem (beats downbeats : List ℤ) (rng : ℕ → ℕ) :
    ∀ (fuel : ℕ) (s : BState) (eff : Effect),
      eff ∈ beatnet_loop beats downbeats rng fuel s →
      s.i ≤ eff.start_idx ∧ eff.start_idx + 1 ≤ eff.end_idx ∧
      eff.end_idx < beats.length ∧
      eff.start = beats.getD eff.start_idx 0 ∧
      eff.start + eff.duration = beats.getD eff.end_idx 0 ∧
      is_gap eff.start s.existing 300 = true ∧
      end_overlap (eff.start + eff.duration) s.existing = false := by
  intro fuel
  induction fuel with
  | zero => intro s eff h; simp [beatnet_loop] at h
  | succ fuel ih =>
    intro s eff h
    rw [beatnet_loop] at h
    split at h
    · rcases hp : beatnet_step beats downbeats rng s with ⟨oe, s'⟩
      rw [hp] at h
      rcases beatnet_step_spec beats downbeats rng s oe s' hp with
        ⟨rfl, hex, hi⟩ | ⟨eff0, rfl, he1, he2, he3, he4, he5, he6, he7, hi, hex⟩
      · obtain ⟨m1, m2, m3, m4, m5, m6, m7⟩ := ih s' eff h
        rw [hex] at m6 m7
        exact ⟨by omega, m2, m3, m4, m5, m6, m7⟩
      · rcases List.mem_cons.mp h with rfl | hmem
        · refine ⟨?_, ?_, he3, ?_, he5, he6, ?_⟩
          · omega
          · omega
          · rw [he1]
            exact he4
          · rw [he5]
            exact he7
        · obtain ⟨m1, m2, m3, m4, m5, m6, m7⟩ := ih s' eff hmem
          have hsub : ∀ p ∈ s.existing,
              p ∈ insert_sorted (eff0.start, beats.getD eff0.end_idx 0) s.existing :=
            fun p hp => mem_insert_sorted.mpr (Or.inr hp)
          rw [hex] at m6 m7
          exact ⟨by omega, m2, m3, m4, m5, is_gap_mono hsub m6,
            end_overlap_mono hsub m7⟩
    · simp at h

theorem beatnet_loop_pairwise (beats downbeats : List ℤ) (rng : ℕ → ℕ)
    (hsorted : beats.Pairwise (· < ·)) :
    ∀ (fuel : ℕ) (s : BState),
      (beatnet_loop beats downbeats rng fuel s).Pairwise
        (fun a b => a.end_idx < b.start_idx ∧
          a.start + a.duration + 300 < b.start) := by
  intro fuel
  induction fuel with
  | zero => intro s; simp [beatnet_loop]
  | succ fuel ih =>
    intro s
    rw [beatnet_loop]
    split
    · rcases hp : beatnet_step beats downbeats rng s with ⟨oe, s'⟩
      rcases beatnet_step_spec beats downbeats rng s oe s' hp with
        ⟨rfl, hex, hi⟩ | ⟨eff0, rfl, he1, he2, he3, he4, he5, he6, he7, hi, hex⟩
      · exact ih s'
      · refine List.Pairwise.cons ?_ (ih s')
        intro b hb
        obtain ⟨m1, m2, m3, m4, m5, m6, m7⟩ :=
          beatnet_loop_mem beats downbeats rng fuel s' b hb
        have hidx : eff0.end_idx < b.start_idx := by omega
        have hmem : (eff0.start, beats.getD eff0.end_idx 0) ∈ s'.existing := by
          rw [hex]; exact mem_insert_sorted.mpr (Or.inl rfl)
        have hfree := (is_gap_iff _ _ _).mp m6 _ hmem
        dsimp only at hfree
        have hstart_le : eff0.start ≤ beats.getD eff0.end_idx 0 := by
          have hlt := getD_lt_getD_of_sorted hsorted
            (show eff0.start_idx < eff0.end_idx by omega) he3
          rw [he1] at hlt
          rw [he4]
          omega
        have hb_gt : beats.getD eff0.end_idx 0 < b.start := by
          rw [m4]
          exact getD_lt_getD_of_sorted hsorted hidx (by omega)
        -- freedom of b.start with respect to (eff0.start, end time):
        -- the left bound holds, so the right bound must fail
        have hnot : ¬(b.start ≤ beats.getD eff0.end_idx 0 + 300) :=
          fun hcon => hfree ⟨by omega, hcon⟩
        exact ⟨hidx, by omega⟩
    · simp

theorem beatnet_loop_fuel_irrel (beats downbeats : List ℤ) (rng : ℕ → ℕ) :
    ∀ (n : ℕ) (s : BState) (f1 f2 : ℕ), beats.length - s.i = n →
      n ≤ f1 → n ≤ f2 →
      beatnet_loop beats downbeats rng f1 s = beatnet_loop beats downbeats rng f2 s := by
  intro n
  induction n using Nat.strong_induction_on with
  | _ n ih =>
    intro s f1 f2 hn h1 h2
    by_cases hi : s.i < beats.length
    · obtain ⟨g1, rfl⟩ : ∃ g1, f1 = g1 + 1 := ⟨f1 - 1, by omega⟩
      obtain ⟨g2, rfl⟩ : ∃ g2, f2 = g2 + 1 := ⟨f2 - 1, by omega⟩
      rw [beatnet_loop, beatnet_loop, if_pos hi, if_pos hi]
      have hstep := beatnet_step_progress beats downbeats rng s
      rcases hp : beatnet_step beats downbeats rng s with ⟨oe, s'⟩
      rw [hp] at hstep
      dsimp only at hstep
      have hrec := ih (beats.length - s'.i) (by omega) s' g1 g2 rfl
        (by omega) (by omega)
      cases oe
      · dsimp only
        exact hrec
      · dsimp only
        rw [hrec]
    · cases f1 <;> cases f2 <;> simp [beatnet_loop, hi]

theorem find_end_beat_waveform_some {start_idx : ℕ} {beats : List ℤ}
    {existing : List (ℤ × ℤ)} {is_d is_s : Bool} {min_duration max_duration : ℤ}
    {j : ℕ} {e d : ℤ}
    (h : find_end_beat_waveform start_idx beats existing is_d is_s
      min_duration max_duration = some (j, e, d)) :
    start_idx + 1 ≤ j ∧ j < beats.length ∧ e = beats.getD j 0 ∧
    d = e - beats.getD start_idx 0 ∧
    (waveform_window is_d is_s min_duration max_duration).1 ≤ d ∧
    d ≤ (waveform_window is_d is_s min_duration max_duration).2 ∧
    end_overlap e existing = false := by
  simp only [find_end_beat_waveform] at h
  rcases Nat.le_total (min (start_idx + 20) beats.length) (start_idx + 1) with hle | hle
  · have hc : min (start_idx + 20) beats.length - (start_idx + 1) = 0 := by omega
    rw [hc] at h
    simp [scan_end] at h
  · obtain ⟨h1, h2, h3, h4, h5, h6, h7, _⟩ :=
      scan_end_some_spec _ _ _ _ _ _ _ _ _ _ h
    exact ⟨h1, by omega, h3, h4, h5, h6, h7⟩

theorem waveform_loop_mem_idx (beats downbeats strong_beats : List ℤ)
    (existing : List (ℤ × ℤ)) (rng : ℕ → ℕ) :
    ∀ (fuel beat_idx ctr : ℕ) (eff : WEffect),
      eff ∈ waveform_loop beats downbeats strong_beats existing rng fuel beat_idx ctr →
      ∃ si ei, beat_idx ≤ si ∧ si + 1 ≤ ei ∧ ei < beats.length ∧
        eff.start_time = beats.getD si 0 ∧ eff.end_time = beats.getD ei 0 ∧
        eff.start_time + eff.duration = eff.end_time ∧
        is_gap eff.start_time existing 300 = true ∧
        end_overlap eff.end_time existing = false := by
  intro fuel
  induction fuel with
  | zero => intro bi ctr eff h; simp [waveform_loop] at h
  | succ fuel ih =>
    intro bi ctr eff h
    simp only [waveform_loop] at h
    split at h
    next hi =>
      split at h
      next hg =>
        split at h
        next end_idx end_time duration heq =>
          obtain ⟨k1, k2, k3, k4, _, _, k7⟩ := find_end_beat_waveform_some heq
          rcases List.mem_cons.mp h with rfl | hmem
          · refine ⟨bi, end_idx, le_rfl, k1, k2, rfl, k3, ?_, hg, ?_⟩
            · dsimp only
              omega
            · exact k7
          · obtain ⟨si, ei, m1, m2, m3, m4, m5, m6, m7, m8⟩ := ih _ _ eff hmem
            exact ⟨si, ei, by omega, m2, m3, m4, m5, m6, m7, m8⟩
        next heq =>
          obtain ⟨si, ei, m1, m2, m3, m4, m5, m6, m7, m8⟩ := ih _ _ eff h
          exact ⟨si, ei, by omega, m2, m3, m4, m5, m6, m7, m8⟩
      next =>
        obtain ⟨si, ei, m1, m2, m3, m4, m5, m6, m7, m8⟩ := ih _ _ eff h
        exact ⟨si, ei, by omega, m2, m3, m4, m5, m6, m7, m8⟩
    next => simp at h

theorem waveform_loop_pairwise (beats downbeats strong_beats : List ℤ)
    (existing : List (ℤ × ℤ)) (rng : ℕ → ℕ)
    (hsorted : beats.Pairwise (· < ·)) :
    ∀ (fuel beat_idx ctr : ℕ),
      (waveform_loop beats downbeats strong_beats existing rng fuel beat_idx ctr).Pairwise
        (fun a b => a.end_time < b.start_time) := by
  intro fuel
  induction fuel with
  | zero => intro bi ctr; simp [waveform_loop]
  | succ fuel ih =>
    intro bi ctr
    simp only [waveform_loop]
    split
    next hi =>
      split
      next hg =>
        split
        next end_idx end_time duration heq =>
          refine List.Pairwise.cons ?_ (ih _ _)
          intro b hb
          obtain ⟨si, ei, m1, m2, m3, m4, m5, m6, m7, m8⟩ :=
            waveform_loop_mem_idx beats downbeats strong_beats existing rng
              fuel _ _ b hb
          obtain ⟨k1, k2, k3, _⟩ := find_end_beat_waveform_some heq
          dsimp only
          rw [m4, k3]
          exact getD_lt_getD_of_sorted hsorted (by omega) (by omega)
        next heq => exact ih _ _
      next => exact ih _ _
    next => simp

theorem waveform_next_progress (beats downbeats strong_beats : List ℤ)
    (existing : List (ℤ × ℤ)) (beat_idx : ℕ) :
    beat_idx < waveform_next beats downbeats strong_beats existing beat_idx := by
  rw [waveform_next]
  split
  · split
    next end_idx _ _ heq =>
      have := (find_end_beat_waveform_some heq).1
      omega
    next => omega
  · omega

theorem waveform_loop_succ (beats downbeats strong_beats : List ℤ)
    (existing : List (ℤ × ℤ)) (rng : ℕ → ℕ) (fuel beat_idx ctr : ℕ)
    (hi : beat_idx < beats.length) :
    waveform_loop beats downbeats strong_beats existing rng (fuel + 1) beat_idx ctr =
      waveform_loop beats downbeats strong_beats existing rng fuel
        (waveform_next beats downbeats strong_beats existing beat_idx) ctr ∨
    ∃ e, waveform_loop beats downbeats strong_beats existing rng (fuel + 1) beat_idx ctr =
      e :: waveform_loop beats downbeats strong_beats existing rng fuel
        (waveform_next beats downbeats strong_beats existing beat_idx) (ctr + 2) := by
  simp only [waveform_loop, waveform_next]
  rw [if_pos hi]
  by_cases hg : is_gap (beats.getD beat_idx 0) existing 300 = true
  · rw [if_pos hg, if_pos hg]
    cases hfe : find_end_beat_waveform beat_idx beats existing
        (downbeats.contains (beats.getD beat_idx 0))
        (strong_beats.contains (beats.getD beat_idx 0)) 500 10000 with
    | none => exact Or.inl rfl
    | some r =>
      obtain ⟨ei, et, du⟩ := r
      exact Or.inr ⟨_, rfl⟩
  · rw [if_neg hg, if_neg hg]
    exact Or.inl rfl

theorem waveform_loop_fuel_irrel (beats downbeats strong_beats : List ℤ)
    (existing : List (ℤ × ℤ)) (rng : ℕ → ℕ) :
    ∀ (n beat_idx ctr f1 f2 : ℕ), beats.length - beat_idx = n →
      n ≤ f1 → n ≤ f2 →
      waveform_loop beats downbeats strong_beats existing rng f1 beat_idx ctr =
        waveform_loop beats downbeats strong_beats existing rng f2 beat_idx ctr := by
  intro n
  induction n using Nat.strong_induction_on with
  | _ n ih =>
    intro beat_idx ctr f1 f2 hn h1 h2
    by_cases hi : beat_idx < beats.length
    · obtain ⟨g1, rfl⟩ : ∃ g1, f1 = g1 + 1 := ⟨f1 - 1, by omega⟩
      obtain ⟨g2, rfl⟩ : ∃ g2, f2 = g2 + 1 := ⟨f2 - 1, by omega⟩
      simp only [waveform_loop]
      rw [if_pos hi, if_pos hi]
      by_cases hg : is_gap (beats.getD beat_idx 0) existing 300 = true
      · rw [if_pos hg, if_pos hg]
        cases hfe : find_end_beat_waveform beat_idx beats existing
            (downbeats.contains (beats.getD beat_idx 0))
            (strong_beats.contains (beats.getD beat_idx 0)) 500 10000 with
        | none =>
          exact ih (beats.length - (beat_idx + 1)) (by omega) _ _ _ _ rfl
            (by omega) (by omega)
        | some r =>
          obtain ⟨ei, et, du⟩ := r
          have hei := (find_end_beat_waveform_some hfe).1
          have hrec := ih (beats.length - (ei + 1)) (by omega) (ei + 1) (ctr + 2)
            g1 g2 rfl (by omega) (by omega)
          dsimp only
          rw [hrec]
      · rw [if_neg hg, if_neg hg]
        exact ih (beats.length - (beat_idx + 1)) (by omega) _ _ _ _ rfl
          (by omega) (by omega)
    · cases f1 <;> cases f2 <;> simp [waveform_loop, hi]

theorem skip_covered_spec (bg : List ℤ) (limit : ℤ) :
    ∀ (fuel i : ℕ),
      i ≤ skip_covered bg limit fuel i ∧
      (∀ j, i ≤ j → j < skip_covered bg limit fuel i → bg.getD j 0 < limit) ∧
      (skip_covered bg limit fuel i < i + fuel →
        skip_covered bg limit fuel i < bg.length →
        limit ≤ bg.getD (skip_covered bg limit fuel i) 0) := by
  intro fuel
  induction fuel with
  | zero =>
    intro i
    refine ⟨le_rfl, ?_, ?_⟩
    · intro j hj1 hj2
      rw [skip_covered] at hj2
      omega
    · intro h1 _
      rw [skip_covered] at h1
      omega
  | succ fuel ih =>
    intro i
    by_cases hc : i < bg.length ∧ bg.getD i 0 < limit
    · have heq : skip_covered bg limit (fuel + 1) i = skip_covered bg limit fuel (i + 1) := by
        rw [skip_covered, if_pos hc]
      obtain ⟨ih1, ih2, ih3⟩ := ih (i + 1)
      rw [heq]
      refine ⟨by omega, ?_, ?_⟩
      · intro j hj1 hj2
        rcases Nat.eq_or_lt_of_le hj1 with rfl | hj
        · exact hc.2
        · exact ih2 j hj hj2
      · intro h1 h2
        exact ih3 (by omega) h2
    · have heq : skip_covered bg limit (fuel + 1) i = i := by
        rw [skip_covered, if_neg hc]
      rw [heq]
      refine ⟨le_rfl, fun j hj1 hj2 => by omega, fun h1 h2 => ?_⟩
      push_neg at hc
      have := hc h2
      omega

/-- C1 (counterexample): with pre-existing interval `[5,6]` s (ms scaled),
a downbeat at 4 s and the next beat at 6.5 s, the beatnet scheduler emits
the effect `[4, 6.5]` s, which fully spans the pre-existing interval, so
an emitted effect and a pre-existing interval overlap within margin
0.3 s; and on beats `[0, 1.0, 1.1, 2.0]` s with no pre-existing
intervals, the waveform scheduler plans effects `[0, 1.0]` and
`[1.1, 2.0]` only 0.1 s apart, so two emitted effects are not pairwise
separated by the 0.3 s margin either. -/
theorem claim_C1_counterexample :
    (beatnet_run [4000, 6500] [4000] [(5000, 6000)] (fun _ => 0)).map
        (fun e => (e.start, e.start + e.duration)) = [(4000, 6500)] ∧
    ¬intervals_separated 300 (4000, 6500) (5000, 6000) ∧
    (waveform_run [0, 1000, 1100, 2000] [] [] [] (fun _ => 0)).map
        (fun e => (e.start_time, e.end_time)) = [(0, 1000), (1100, 2000)] ∧
    ¬intervals_separated 300 (0, 1000) (1100, 2000) := by
  refine ⟨by decide, by decide, by decide, by decide⟩

/-- C1 (amended): the beatnet scheduler's emitted effects are pairwise
non-overlapping within margin 0.3 s (each later effect starts more than
0.3 s after every earlier one ends, because placed intervals are fed back
into the occupied set); the waveform scheduler's planned effects are
pairwise non-overlapping (each later one starts strictly after the
earlier one's end) but not margin-separated, because planned effects are
never inserted into `existing_effects`; and in both schedulers only the
endpoints are protected against pre-existing intervals — every emitted
effect's start passes the 0.3 s gap test and its end lies inside no
pre-existing interval — while an effect's interior may fully span a
pre-existing interval (see the counterexample). -/
theorem claim_C1_no_overlap_amended (beats downbeats strong_beats : List ℤ)
    (existing : List (ℤ × ℤ)) (rng : ℕ → ℕ)
    (hsorted : beats.Pairwise (· < ·)) :
    ((beatnet_run beats downbeats existing rng).Pairwise
      (fun a b => intervals_separated 300 (a.start, a.start + a.duration)
        (b.start, b.start + b.duration)) ∧
     ∀ eff ∈ beatnet_run beats downbeats existing rng,
       is_gap eff.start existing 300 = true ∧
       end_overlap (eff.start + eff.duration) existing = false) ∧
    ((waveform_run beats downbeats strong_beats existing rng).Pairwise
      (fun a b => a.end_time < b.start_time) ∧
     ∀ eff ∈ waveform_run beats downbeats strong_beats existing rng,
       is_gap eff.start_time existing 300 = true ∧
       end_overlap eff.end_time existing = false) := by
  refine ⟨⟨?_, ?_⟩, ?_, ?_⟩
  · refine (beatnet_loop_pairwise beats downbeats rng hsorted _ _).imp ?_
    intro a b ⟨_, h2⟩
    exact Or.inl (by dsimp [intervals_separated]; omega)
  · intro eff h
    obtain ⟨_, _, _, _, _, m6, m7⟩ :=
      beatnet_loop_mem beats downbeats rng _ _ eff h
    exact ⟨m6, m7⟩
  · exact waveform_loop_pairwise beats downbeats strong_beats existing rng
      hsorted _ _ _
  · intro eff h
    obtain ⟨si, ei, _, _, _, _, _, _, m7, m8⟩ :=
      waveform_loop_mem_idx beats downbeats strong_beats existing rng _ _ _ eff h
    exact ⟨m7, m8⟩

theorem claim_C1_witness :
    (beatnet_run [0, 1000] [] [] (fun _ => 0)).Pairwise
      (fun a b => intervals_separated 300 (a.start, a.start + a.duration)
        (b.start, b.start + b.duration)) ∧
    (waveform_run [0, 1000] [] [] [] (fun _ => 0)).Pairwise
      (fun a b => a.end_time < b.start_time) :=
  have h := claim_C1_no_overlap_amended [0, 1000] [] [] [] (fun _ => 0) (by decide)
  ⟨h.1.1, h.2.1⟩

/-- C4: in beat-quantized mode every emitted effect's start time and end
time (start + duration) each equal the timestamp of some beat of the
input beat list exactly, in both the beatnet scheduler and the waveform
scheduler. -/
theorem claim_C4_alignment (beats downbeats strong_beats : List ℤ)
    (existing : List (ℤ × ℤ)) (rng : ℕ → ℕ) :
    (∀ eff ∈ beatnet_run beats downbeats existing rng,
      eff.start ∈ beats ∧ eff.start + eff.duration ∈ beats) ∧
    ∀ eff ∈ waveform_run beats downbeats strong_beats existing rng,
      eff.start_time ∈ beats ∧ eff.start_time + eff.duration ∈ beats ∧
      eff.end_time = eff.start_time + eff.duration := by
  constructor
  · intro eff h
    obtain ⟨_, m2, m3, m4, m5, _, _⟩ :=
      beatnet_loop_mem beats downbeats rng _ _ eff h
    constructor
    · rw [m4]; exact getD_mem_of_lt (by omega)
    · rw [m5]; exact getD_mem_of_lt m3
  · intro eff h
    obtain ⟨si, ei, _, m2, m3, m4, m5, m6, _, _⟩ :=
      waveform_loop_mem_idx beats downbeats strong_beats existing rng _ _ _ eff h
    refine ⟨?_, ?_, m6.symm⟩
    · rw [m4]; exact getD_mem_of_lt (by omega)
    · rw [m6, m5]; exact getD_mem_of_lt m3

theorem claim_C4_witness :
    (({ id := 0, start_idx := 0, end_idx := 1, start := 0, duration := 1000,
        kind := "pulse", color_idx := 0 } : Effect).start ∈ [(0 : ℤ), 1000] ∧
     ({ id := 0, start_idx := 0, end_idx := 1, start := 0, duration := 1000,
        kind := "pulse", color_idx := 0 } : Effect).start +
       ({ id := 0, start_idx := 0, end_idx := 1, start := 0, duration := 1000,
          kind := "pulse", color_idx := 0 } : Effect).duration ∈ [(0 : ℤ), 1000]) ∧
    ({ start_time := 0, end_time := 1000, duration := 1000,
       effect_type := "pulse", is_downbeat := false, is_strong := false,
       color_idx := 0 } : WEffect).start_time ∈ [(0 : ℤ), 1000] ∧
    ({ start_time := 0, end_time := 1000, duration := 1000,
       effect_type := "pulse", is_downbeat := false, is_strong := false,
       color_idx := 0 } : WEffect).start_time +
      ({ start_time := 0, end_time := 1000, duration := 1000,
         effect_type := "pulse", is_downbeat := false, is_strong := false,
         color_idx := 0 } : WEffect).duration ∈ [(0 : ℤ), 1000] ∧
    ({ start_time := 0, end_time := 1000, duration := 1000,
       effect_type := "pulse", is_downbeat := false, is_strong := false,
       color_idx := 0 } : WEffect).end_time =
      ({ start_time := 0, end_time := 1000, duration := 1000,
         effect_type := "pulse", is_downbeat := false, is_strong := false,
         color_idx := 0 } : WEffect).start_time +
        ({ start_time := 0, end_time := 1000, duration := 1000,
           effect_type := "pulse", is_downbeat := false, is_strong := false,
           color_idx := 0 } : WEffect).duration :=
  have h := claim_C4_alignment [0, 1000] [] [] [] (fun _ => 0)
  ⟨h.1 _ (by decide), h.2 _ (by decide)⟩

/-- C6 (counterexample): the advance step of `add_beat_synced_effects.py`
uses a strict comparison (`beats_in_gaps[i] < beat_time + duration`), so
a beat whose timestamp exactly equals the placed interval's end is
reconsidered and becomes the next start: with beats `[0, 2.0]` s and
pre-existing interval `[2.4, 3.0]` s the scheduler places `[0, 2.0]` and
then a second effect starting at 2.0 s — a beat with timestamp less than
or equal to the placed end is used as a later start. -/
theorem claim_C6_counterexample :
    (sync_run [(0 : ℤ), 2000] [((2400 : ℤ), 3000)] (fun _ => 0)).map
        (fun e => (e.start, e.duration)) = [(0, 2000), (2000, 300)] ∧
    (2000 : ℤ) ≤ 0 + 2000 := by
  refine ⟨by decide, by decide⟩

/-- C6 (amended): in the beat-quantized schedulers the cursor moves to
the first beat strictly after the placed end beat, so every later effect
starts at a strictly larger index and timestamp; in the free-running
scheduler the advance loop skips exactly the beats with timestamp
strictly below the placed end (`start + duration`): the cursor never
retreats, beats strictly before the placed end are never reconsidered,
but when the loop stops in range the cursor beat's timestamp is at least
the placed end and may equal it exactly (see the counterexample). -/
theorem claim_C6_cursor_advance_amended (beats downbeats strong_beats : List ℤ)
    (existing : List (ℤ × ℤ)) (rng : ℕ → ℕ) (bg : List ℤ) (limit : ℤ)
    (fuel i : ℕ) (hsorted : beats.Pairwise (· < ·)) :
    (beatnet_run beats downbeats existing rng).Pairwise
      (fun a b => a.end_idx < b.start_idx ∧ a.start + a.duration < b.start) ∧
    (waveform_run beats downbeats strong_beats existing rng).Pairwise
      (fun a b => a.end_time < b.start_time) ∧
    i ≤ skip_covered bg limit fuel i ∧
    (∀ j, i ≤ j → j < skip_covered bg limit fuel i → bg.getD j 0 < limit) ∧
    (skip_covered bg limit fuel i < i + fuel →
      skip_covered bg limit fuel i < bg.length →
      limit ≤ bg.getD (skip_covered bg limit fuel i) 0) := by
  obtain ⟨s1, s2, s3⟩ := skip_covered_spec bg limit fuel i
  refine ⟨?_, ?_, s1, s2, s3⟩
  · refine (beatnet_loop_pairwise beats downbeats rng hsorted _ _).imp ?_
    intro a b ⟨h1, h2⟩
    exact ⟨h1, by omega⟩
  · exact waveform_loop_pairwise beats downbeats strong_beats existing rng
      hsorted _ _ _

theorem claim_C6_witness :
    (beatnet_run [0, 1000] [] [] (fun _ => 0)).Pairwise
      (fun a b => a.end_idx < b.start_idx ∧ a.start + a.duration < b.start) ∧
    0 ≤ skip_covered [(0 : ℤ), 2000] 2000 2 0 :=
  have h := claim_C6_cursor_advance_amended [0, 1000] [] [] [] (fun _ => 0)
    [(0 : ℤ), 2000] 2000 2 0 (by decide)
  ⟨h.1, h.2.2.1⟩

/-- C8: the scan cursor strictly advances on every iteration of both
schedulers' loops (on a skip, on a failed end search, and on a jump past
a placement), and each pass needs at most `beats.length - cursor`
iterations: any fuel of at least that many iterations computes the same
output.  For the beatnet loop the advance is stated on `beatnet_step`;
for the waveform loop on `waveform_next`, together with the unfolding of
one loop iteration through it. -/
theorem claim_C8_termination (beats downbeats strong_beats : List ℤ)
    (existing : List (ℤ × ℤ)) (rng : ℕ → ℕ) (s : BState) (beat_idx ctr : ℕ) :
    s.i < (beatnet_step beats downbeats rng s).2.i ∧
    (∀ fuel, beats.length - s.i ≤ fuel →
      beatnet_loop beats downbeats rng fuel s =
        beatnet_loop beats downbeats rng (beats.length - s.i) s) ∧
    beat_idx < waveform_next beats downbeats strong_beats existing beat_idx ∧
    (∀ fuel, beat_idx < beats.length →
      waveform_loop beats downbeats strong_beats existing rng (fuel + 1) beat_idx ctr =
        waveform_loop beats downbeats strong_beats existing rng fuel
          (waveform_next beats downbeats strong_beats existing beat_idx) ctr ∨
      ∃ e, waveform_loop beats downbeats strong_beats existing rng (fuel + 1) beat_idx ctr =
        e :: waveform_loop beats downbeats strong_beats existing rng fuel
          (waveform_next beats downbeats strong_beats existing beat_idx) (ctr + 2)) ∧
    (∀ fuel, beats.length - beat_idx ≤ fuel →
      waveform_loop beats downbeats strong_beats existing rng fuel beat_idx ctr =
        waveform_loop beats downbeats strong_beats existing rng
          (beats.length - beat_idx) beat_idx ctr) := by
  refine ⟨beatnet_step_progress beats downbeats rng s, ?_,
    waveform_next_progress beats downbeats strong_beats existing beat_idx,
    ?_, ?_⟩
  · intro fuel hfuel
    exact beatnet_loop_fuel_irrel beats downbeats rng _ s fuel _ rfl hfuel le_rfl
  · intro fuel hi
    exact waveform_loop_succ beats downbeats strong_beats existing rng fuel
      beat_idx ctr hi
  · intro fuel hfuel
    exact waveform_loop_fuel_irrel beats downbeats strong_beats existing rng _
      beat_idx ctr fuel _ rfl hfuel le_rfl

theorem claim_C8_witness :
    beatnet_loop [0, 1000] [] (fun _ => 0) 5 ⟨0, [], 0, 0⟩ =
      beatnet_loop [0, 1000] [] (fun _ => 0) ([(0 : ℤ), 1000].length - 0)
        ⟨0, [], 0, 0⟩ ∧
    0 < waveform_next [0, 1000] [] [] [] 0 ∧
    waveform_loop [0, 1000] [] [] [] (fun _ => 0) 5 0 0 =
      waveform_loop [0, 1000] [] [] [] (fun _ => 0)
        ([(0 : ℤ), 1000].length - 0) 0 0 :=
  have h := claim_C8_termination [0, 1000] [] [] [] (fun _ => 0) ⟨0, [], 0, 0⟩ 0 0
  ⟨h.2.1 5 (by decide), h.2.2.1, h.2.2.2.2 5 (by decide)⟩

theorem getD_mod_mem {l : List String} (h : l ≠ []) (n : ℕ) :
    l.getD (n % l.length) "" ∈ l := by
  have hlen : 0 < l.length := List.length_pos.mpr h
  have hmod : n % l.length < l.length := Nat.mod_lt n hlen
  rw [List.getD_eq_getElem l "" hmod]
  exact List.getElem_mem hmod

theorem waveform_choices_ne_nil (is_downbeat is_strong : Bool) (duration : ℤ) :
    waveform_choices is_downbeat is_strong duration ≠ [] := by
  rw [waveform_choices]
  split_ifs <;> simp

theorem waveform_loop_mem (beats downbeats strong_beats : List ℤ)
    (existing : List (ℤ × ℤ)) (rng : ℕ → ℕ) :
    ∀ (fuel beat_idx ctr : ℕ) (eff : WEffect),
      eff ∈ waveform_loop beats downbeats strong_beats existing rng fuel beat_idx ctr →
      (waveform_window eff.is_downbeat eff.is_strong 500 10000).1 ≤ eff.duration ∧
      eff.duration ≤ (waveform_window eff.is_downbeat eff.is_strong 500 10000).2 ∧
      eff.effect_type ∈ waveform_choices eff.is_downbeat eff.is_strong eff.duration := by
  intro fuel
  induction fuel with
  | zero => intro bi ctr eff h; simp [waveform_loop] at h
  | succ fuel ih =>
    intro bi ctr eff h
    simp only [waveform_loop] at h
    split at h
    · split at h
      · split at h
        next end_idx end_time duration heq =>
          rcases List.mem_cons.mp h with rfl | hmem
          · obtain ⟨_, _, _, _, hb1, hb2, _⟩ := find_end_beat_waveform_some heq
            exact ⟨hb1, hb2, getD_mod_mem (waveform_choices_ne_nil _ _ _) _⟩
          · exact ih _ _ eff hmem
        next heq => exact ih _ _ eff h
      · exact ih _ _ eff h
    · simp at h

theorem mem_of_mem_three {x a b c : String} {l : List String}
    (h : x ∈ [a, b, c]) (ha : a ∈ l) (hb : b ∈ l) (hc : c ∈ l) : x ∈ l := by
  rcases List.mem_cons.mp h with rfl | h
  · exact ha
  rcases List.mem_cons.mp h with rfl | h
  · exact hb
  rcases List.mem_cons.mp h with rfl | h
  · exact hc
  simp at h

theorem mem_of_mem_two {x a b : String} {l : List String}
    (h : x ∈ [a, b]) (ha : a ∈ l) (hb : b ∈ l) : x ∈ l := by
  rcases List.mem_cons.mp h with rfl | h
  · exact ha
  rcases List.mem_cons.mp h with rfl | h
  · exact hb
  simp at h

/-- C3: every effect planned by the waveform scheduler has its duration
inside the `[min,max]` window of its start beat's salience tier, where
the code's tiers fall inside the specified parameter ranges (downbeat min
1.0 s in 1.0–2.0 s, max 8 s in 8–10 s; strong min 0.7 s in 0.5–0.7 s, max
4 s in 2–4 s; regular min 0.5 s in 0.1–0.5 s, max 2 s), the effect's kind
belongs to the tier's eligible-kind set, and a Pulse effect is never
longer than 2 s. -/
theorem claim_C3_duration_policy (beats downbeats strong_beats : List ℤ)
    (existing : List (ℤ × ℤ)) (rng : ℕ → ℕ) :
    ∀ eff ∈ waveform_run beats downbeats strong_beats existing rng,
      ∃ (min_t max_t : ℤ) (kinds : List String),
        (eff.is_downbeat = true →
          1000 ≤ min_t ∧ min_t ≤ 2000 ∧ 8000 ≤ max_t ∧ max_t ≤ 10000 ∧
          kinds = ["spiral", "butterfly", "twinkle", "wipe"]) ∧
        (eff.is_downbeat = false → eff.is_strong = true →
          500 ≤ min_t ∧ min_t ≤ 700 ∧ 2000 ≤ max_t ∧ max_t ≤ 4000 ∧
          kinds = ["pulse", "twinkle", "wipe", "butterfly"]) ∧
        (eff.is_downbeat = false → eff.is_strong = false →
          100 ≤ min_t ∧ min_t ≤ 500 ∧ max_t ≤ 2000 ∧ kinds = ["pulse"]) ∧
        min_t ≤ eff.duration ∧ eff.duration ≤ max_t ∧
        eff.effect_type ∈ kinds ∧
        (eff.effect_type = "pulse" → eff.duration ≤ 2000) := by
  intro eff h
  obtain ⟨h1, h2, h3⟩ :=
    waveform_loop_mem beats downbeats strong_beats existing rng _ _ _ eff h
  cases hd : eff.is_downbeat with
  | true =>
    rw [hd] at h1 h2 h3
    refine ⟨1000, 8000, ["spiral", "butterfly", "twinkle", "wipe"],
      fun _ => ⟨by decide, by decide, by decide, by decide, rfl⟩,
      fun hcon _ => absurd hcon (by decide),
      fun hcon _ => absurd hcon (by decide), h1, h2, ?_, ?_⟩
    · by_cases h4 : (4000 : ℤ) ≤ eff.duration
      · rw [show waveform_choices true eff.is_strong eff.duration =
            ["spiral", "butterfly"] by simp [waveform_choices, h4]] at h3
        exact mem_of_mem_two h3 (by decide) (by decide)
      · rw [show waveform_choices true eff.is_strong eff.duration =
            ["wipe", "twinkle", "butterfly"] by simp [waveform_choices, h4]] at h3
        exact mem_of_mem_three h3 (by decide) (by decide) (by decide)
    · intro hp
      by_cases h4 : (4000 : ℤ) ≤ eff.duration
      · rw [show waveform_choices true eff.is_strong eff.duration =
            ["spiral", "butterfly"] by simp [waveform_choices, h4], hp] at h3
        exact absurd h3 (by decide)
      · rw [show waveform_choices true eff.is_strong eff.duration =
            ["wipe", "twinkle", "butterfly"] by simp [waveform_choices, h4], hp] at h3
        exact absurd h3 (by decide)
  | false =>
    cases hs : eff.is_strong with
    | true =>
      rw [hd, hs] at h1 h2 h3
      refine ⟨700, 4000, ["pulse", "twinkle", "wipe", "butterfly"],
        fun hcon => absurd hcon (by decide),
        fun _ _ => ⟨by decide, by decide, by decide, by decide, rfl⟩,
        fun _ hcon => absurd hcon (by decide), h1, h2, ?_, ?_⟩
      · by_cases h4 : (2000 : ℤ) ≤ eff.duration
        · rw [show waveform_choices false true eff.duration =
              ["wipe", "twinkle", "butterfly"] by simp [waveform_choices, h4]] at h3
          exact mem_of_mem_three h3 (by decide) (by decide) (by decide)
        · rw [show waveform_choices false true eff.duration =
              ["pulse", "pulse", "twinkle"] by simp [waveform_choices, h4]] at h3
          exact mem_of_mem_three h3 (by decide) (by decide) (by decide)
      · intro hp
        by_cases h4 : (2000 : ℤ) ≤ eff.duration
        · rw [show waveform_choices false true eff.duration =
              ["wipe", "twinkle", "butterfly"] by simp [waveform_choices, h4], hp] at h3
          exact absurd h3 (by decide)
        · omega
    | false =>
      rw [hd, hs] at h1 h2 h3
      refine ⟨500, 2000, ["pulse"],
        fun hcon => absurd hcon (by decide),
        fun _ hcon => absurd hcon (by decide),
        fun _ _ => ⟨by decide, by decide, by decide, rfl⟩, h1, h2, h3, fun _ => h2⟩

theorem claim_C3_witness :
    ∃ (min_t max_t : ℤ) (kinds : List String),
      min_t ≤ 1000 ∧ 1000 ≤ max_t ∧ "pulse" ∈ kinds := by
  obtain ⟨mt, xt, ks, _, _, _, hmin, hmax, hmem, _⟩ :=
    claim_C3_duration_policy [0, 1000] [] [] [] (fun _ => 0)
      { start_time := 0, end_time := 1000, duration := 1000,
        effect_type := "pulse", is_downbeat := false, is_strong := false,
        color_idx := 0 } (by decide)
  exact ⟨mt, xt, ks, hmin, hmax, hmem⟩

/-- C7: the whole pass is a pure function of its inputs: with identical
beat lists, salience lists, pre-existing intervals and random stream
(seed/rotation state), two runs of the beat-quantized schedulers produce
identical output lists. -/
theorem claim_C7_determinism (beats1 beats2 downbeats1 downbeats2 strong1
      strong2 : List ℤ) (existing1 existing2 : List (ℤ × ℤ))
    (rng1 rng2 : ℕ → ℕ) (hb : beats1 = beats2) (hd : downbeats1 = downbeats2)
    (hs : strong1 = strong2) (he : existing1 = existing2) (hr : rng1 = rng2) :
    beatnet_run beats1 downbeats1 existing1 rng1 =
      beatnet_run beats2 downbeats2 existing2 rng2 ∧
    waveform_run beats1 downbeats1 strong1 existing1 rng1 =
      waveform_run beats2 downbeats2 strong2 existing2 rng2 := by
  subst hb
  subst hd
  subst hs
  subst he
  subst hr
  exact ⟨rfl, rfl⟩

theorem claim_C7_witness :
    beatnet_run [0, 1000] [] [] (fun _ => 0) =
      beatnet_run [0, 1000] [] [] (fun _ => 0) ∧
    waveform_run [0, 1000] [] [] [] (fun _ => 0) =
      waveform_run [0, 1000] [] [] [] (fun _ => 0) :=
  claim_C7_determinism [0, 1000] [0, 1000] [] [] [] [] [] [] (fun _ => 0)
    (fun _ => 0) rfl rfl rfl rfl rfl

theorem fold_end_time_lower (t : ℤ) :
    ∀ (l : List (ℤ × ℤ)) (acc : ℤ),
      (∀ p ∈ l, t < p.1 → t + 300 < p.1) → t + 200 < acc →
      t + 200 < l.foldl
        (fun acc p => if t < p.1 ∧ p.1 < acc then p.1 - 100 else acc) acc := by
  intro l
  induction l with
  | nil => intro acc _ hacc; simpa using hacc
  | cons p l ih =>
    intro acc hl hacc
    rw [List.foldl_cons]
    apply ih _ (fun q hq hlt => hl q (List.mem_cons_of_mem _ hq) hlt)
    by_cases hc : t < p.1 ∧ p.1 < acc
    · rw [if_pos hc]
      have := hl p (List.mem_cons_self p l) hc.1
      omega
    · rw [if_neg hc]
      exact hacc

theorem find_gap_duration_lower {t : ℤ} {existing : List (ℤ × ℤ)}
    (hvalid : ∀ p ∈ existing, p.1 ≤ p.2)
    (hfree : is_gap t existing 300 = true) :
    200 < find_gap_duration t existing 10000 := by
  have hkey : ∀ p ∈ existing, t < p.1 → t + 300 < p.1 := by
    intro p hp hlt
    have hn := (is_gap_iff t 300 existing).mp hfree p hp
    have hv := hvalid p hp
    by_contra hcon
    push_neg at hcon
    exact hn ⟨by omega, by omega⟩
  have hfold := fold_end_time_lower t existing (t + 10000) hkey (by omega)
  simp only [find_gap_duration]
  rw [lt_min_iff]
  exact ⟨by omega, by decide⟩

theorem sync_loop_mem (bg : List ℤ) (existing : List (ℤ × ℤ)) (rng : ℕ → ℕ)
    (hvalid : ∀ p ∈ existing, p.1 ≤ p.2)
    (hfree : ∀ x ∈ bg, is_gap x existing 300 = true) :
    ∀ (fuel i color_idx ctr : ℕ) (eff : SEffect),
      eff ∈ sync_loop bg existing rng fuel i color_idx ctr →
      0 < eff.duration := by
  intro fuel
  induction fuel with
  | zero => intro i c r eff h; simp [sync_loop] at h
  | succ fuel ih =>
    intro i c r eff h
    rw [sync_loop] at h
    split at h
    next hi =>
      rcases List.mem_cons.mp h with rfl | hmem
      · have hgap := find_gap_duration_lower hvalid (hfree _ (getD_mem_of_lt hi))
        dsimp only
        split_ifs <;> omega
      · exact ih _ _ _ eff hmem
    next => simp at h

/-- C10: in the free-running scheduler, every time point that passes the
gap test with margin 0.3 s has a computed free span of at least 0.2 s
(the 0.3 s margin minus the 0.1 s gap buffer), and consequently every
emitted effect has strictly positive duration and an interval with
start < end, although no explicit positivity check exists in the code.
Requires the pre-existing intervals to be genuine (start ≤ end). -/
theorem claim_C10_positive_duration (drum_beats : List ℤ)
    (existing : List (ℤ × ℤ)) (rng : ℕ → ℕ)
    (hvalid : ∀ p ∈ existing, p.1 ≤ p.2) :
    (∀ t, is_gap t existing 300 = true →
      200 ≤ find_gap_duration t existing 10000) ∧
    ∀ eff ∈ sync_run drum_beats existing rng,
      0 < eff.duration ∧ eff.start < eff.start + eff.duration := by
  constructor
  · intro t ht
    exact le_of_lt (find_gap_duration_lower hvalid ht)
  · intro eff h
    simp only [sync_run] at h
    have hfree : ∀ x ∈ drum_beats.filter (fun t => is_gap t existing 300),
        is_gap x existing 300 = true := fun x hx => (List.mem_filter.mp hx).2
    have hdur := sync_loop_mem _ _ rng hvalid hfree _ _ _ _ eff h
    exact ⟨hdur, by omega⟩

theorem claim_C10_witness :
    (200 : ℤ) ≤ find_gap_duration 0 [((1000 : ℤ), 2000)] 10000 :=
  (claim_C10_positive_duration [] [((1000 : ℤ), 2000)] (fun _ => 0)
    (by decide)).1 0 (by decide)

/-- C5 (counterexample): a beat at 0 with a pre-existing interval
`[0.5 s, 1 s]` passes the gap test, its free span is 0.4 s — smaller than
the 0.5 s regular-beat minimum duration that the repository's
beat-quantized schedulers use (`min_duration = 0.5`), under which the
end-point resolver reports no placement — yet the free-running scheduler
places an effect of duration 0.4 s at that beat: there is no
minimum-duration skip. -/
theorem claim_C5_counterexample :
    is_gap 0 [((500 : ℤ), 1000)] 300 = true ∧
    find_gap_duration 0 [((500 : ℤ), 1000)] 10000 = 400 ∧
    (400 : ℤ) < 500 ∧
    find_end_beat 0 [(0 : ℤ), 400] [((500 : ℤ), 1000)] 500 2000 = none ∧
    (sync_run [(0 : ℤ), 400] [((500 : ℤ), 1000)] (fun _ => 0)).map
      (fun e => (e.start, e.duration)) = [(0, 400)] := by
  refine ⟨by decide, by decide, by decide, by decide, by decide⟩

/-- C5 (amended): the free-running scheduler performs no minimum-duration
check at all: at every beat the cursor reaches (all of which passed the
gap test), an effect is placed unconditionally, with duration
`min(freeSpan, cap)` where the cap (8/5/2 s) depends only on the gap
size; a beat is never skipped for having too small a free span. -/
theorem claim_C5_no_min_check_amended (bg : List ℤ)
    (existing : List (ℤ × ℤ)) (rng : ℕ → ℕ) (fuel i color_idx ctr : ℕ)
    (hi : i < bg.length) (hfuel : 0 < fuel) :
    ∃ eff rest, sync_loop bg existing rng fuel i color_idx ctr = eff :: rest ∧
      eff.start = bg.getD i 0 ∧
      eff.duration =
        (if 5000 ≤ find_gap_duration (bg.getD i 0) existing 10000 then
          min (find_gap_duration (bg.getD i 0) existing 10000) 8000
        else if 2500 ≤ find_gap_duration (bg.getD i 0) existing 10000 then
          min (find_gap_duration (bg.getD i 0) existing 10000) 5000
        else min (find_gap_duration (bg.getD i 0) existing 10000) 2000) := by
  obtain ⟨f, rfl⟩ : ∃ f, fuel = f + 1 := ⟨fuel - 1, by omega⟩
  rw [sync_loop, if_pos hi]
  exact ⟨_, _, rfl, rfl, rfl⟩

theorem claim_C5_witness :
    ∃ eff rest, sync_loop [(0 : ℤ)] [] (fun _ => 0) 1 0 0 0 = eff :: rest ∧
      eff.start = [(0 : ℤ)].getD 0 0 ∧
      eff.duration =
        (if 5000 ≤ find_gap_duration ([(0 : ℤ)].getD 0 0) [] 10000 then
          min (find_gap_duration ([(0 : ℤ)].getD 0 0) [] 10000) 8000
        else if 2500 ≤ find_gap_duration ([(0 : ℤ)].getD 0 0) [] 10000 then
          min (find_gap_duration ([(0 : ℤ)].getD 0 0) [] 10000) 5000
        else min (find_gap_duration ([(0 : ℤ)].getD 0 0) [] 10000) 2000) :=
  claim_C5_no_min_check_amended [(0 : ℤ)] [] (fun _ => 0) 1 0 0 0 (by decide)
    (by decide)

/-- C9 (counterexample): the duration decoder is total and silently maps
a malformed string to 0 seconds instead of failing: `parse_duration
"banana"` is 0 (the regex does not match), and loading an existing-effect
entry with malformed duration strings still produces an interval record
(a degenerate one), so the pass continues instead of aborting with an
`InputError`; no error type exists anywhere in the code. -/
theorem claim_C9_counterexample :
    parse_duration "banana" = 0 ∧ dur_match "banana".toList = none ∧
    (load_existing [("banana", "banana")]).length = 1 :=
  ⟨rfl, rfl, rfl⟩

/-- C9 (amended): on a malformed duration encoding the decoder silently
yields 0 seconds and the pass keeps running: every input string decodes
to some rational (0 when the pattern does not match), every
existing-effect entry is loaded (none is rejected), and no validation of
beat sortedness or interval positivity exists. -/
theorem claim_C9_error_handling_amended :
    (∀ s : String, dur_match s.toList = none → parse_duration s = 0) ∧
    ∀ entries : List (String × String),
      (load_existing entries).length = entries.length := by
  constructor
  · intro s h
    rw [parse_duration, h]
  · intro entries
    rw [load_existing, (List.perm_insertionSort _ _).length_eq, List.length_map]

theorem claim_C9_witness :
    parse_duration "banana" = 0 ∧ (load_existing [("a", "b")]).length = 1 :=
  ⟨claim_C9_error_handling_amended.1 "banana" rfl,
   claim_C9_error_handling_amended.2 [("a", "b")]⟩

end Vixen
